import Mathlib

/-!
Verification of the bounded-concurrency batch orchestrator of the scry-node
repository, as implemented by its five near-identical variants
(`processStoriesInBatches` / `inspectStories` in the inspect-stories module,
`uploadFilesInParallel` / `uploadFiles` in the R2 uploader, and
`generateTextEmbeddingsInParallel` / `generateTextEmbeddings` in
`newscripts/analyze-storybook.cjs`).

The JavaScript is embedded shallowly:

* the caller-supplied asynchronous operations (`batchInspectMultipleComponents`,
  `inspectComponent`, `uploadFile`, the Jina embedding HTTP call) are modelled
  as pure functions into `Except`;
* `fs.existsSync`-based screenshot filtering is a Boolean predicate parameter;
* the promise machinery is modelled by explicit state passing; the
  nondeterministic completion order of concurrently running batch promises is
  an explicit schedule parameter, and loops whose termination depends on the
  configuration are indexed by fuel (`none` = the loop is still running after
  that many iterations);
* run-time logging and the inter-batch delays (timing only) are not modelled.

Each orchestrator run is instrumented with a trace of the external operation
invocations (`OpCall`) or of the scheduler events (`SchedEv`), so that claims
about which operations run, and about how many batch tasks are in flight,
are statements about the trace.
-/

namespace Scry

/-- JavaScript `Array.prototype.slice(s, e)`: negative endpoints count from the
end of the array, and both endpoints are clamped to `[0, length]`. -/
def sliceJS (l : List α) (s e : Int) : List α :=
  let n : Int := l.length
  let s' : Int := if s < 0 then max (n + s) 0 else min s n
  let e' : Int := if e < 0 then max (n + e) 0 else min e n
  (l.drop s'.toNat).take (e' - s').toNat

/-- Fuel-indexed embedding of the batch-partition loop shared by all variants:
`for (let i = 0; i < files.length; i += batchSize) batches.push(files.slice(i, i + batchSize))`.
The accumulator is the `batches` array, `i` is the (integer) loop index, and
`none` means the loop has not terminated within `fuel` iterations. -/
def mkBatchesF (batchSize : Int) (files : List α) : Nat → Int → List (List α) → Option (List (List α))
  | 0, _, _ => none
  | fuel + 1, i, acc =>
    if i < (files.length : Int) then
      mkBatchesF batchSize files fuel (i + batchSize) (acc ++ [sliceJS files i (i + batchSize)])
    else
      some acc

/-- Batch partitioning as run by the source: the loop of `mkBatchesF` started
at index `0` with an empty `batches` array. -/
def mkBatches (batchSize : Int) (files : List α) (fuel : Nat) : Option (List (List α)) :=
  mkBatchesF batchSize files fuel 0 []

/-- Structural worker for `chunkList`: the first argument is fuel, always
instantiated with the length of the list, which bounds the number of chunks. -/
def chunkAux (bs : Nat) : Nat → List α → List (List α)
  | _, [] => []
  | 0, _ :: _ => []
  | fuel + 1, x :: xs =>
    if bs = 0 then []
    else (x :: xs).take bs :: chunkAux bs fuel ((x :: xs).drop bs)

/-- Total description of the partition produced by the source loop in its
terminating regime (`batchSize ≥ 1`): successive chunks of `bs` elements, the
last chunk possibly shorter. `mkBatches_eq_chunkList` connects the two. -/
def chunkList (bs : Nat) (l : List α) : List (List α) :=
  chunkAux bs l.length l

/-- Per-item outcome recorded by `processStoriesInBatches`: the JS objects
`{success: true, story, result}` and `{success: false, story, error}`. In the
zip of a successful batch call the story is looked up as `batch[index]`, which
in JavaScript is `undefined` when the batch operation returned more results
than the batch has items; the success story is therefore an `Option`. -/
inductive Outcome (α R E : Type) where
  | success (story : Option α) (result : R)
  | failure (story : α) (error : E)
  deriving DecidableEq, Repr

/-- Discriminant of an outcome, the JS `success` field. -/
def Outcome.isSuccess : Outcome α R E → Bool
  | .success _ _ => true
  | .failure _ _ => false

/-- Outcome of running the per-item operation on one story: the record pushed
by the individual and fallback paths. -/
def itemOutcome (itemOp : α → Except E R) (s : α) : Outcome α R E :=
  match itemOp s with
  | .ok r => .success (some s) r
  | .error e => .failure s e

/-- Invocation of one of the caller-supplied external operations: a multi-item
batch call (`batchInspectMultipleComponents`) or a per-item call
(`inspectComponent`). -/
inductive OpCall (α : Type) where
  | batchCall (batch : List α)
  | itemCall (story : α)
  deriving DecidableEq, Repr

/-- Options of `processStoriesInBatches`, with the source's defaults. The
delay options only affect timing and are not modelled. -/
structure PSOptions where
  batchSize : Nat := 5
  continueOnError : Bool := true
  useBatchAPI : Bool := true
  fallbackToIndividual : Bool := true
  deriving DecidableEq, Repr

/-- Result of processing one batch (or one sequential stretch of items):
the outcomes pushed onto `results`, the external calls made, and the error
thrown out of the batch's processing, if any. -/
structure StepOut (α R E : Type) where
  outs : List (Outcome α R E)
  log : List (OpCall α)
  thrown : Option E
  deriving DecidableEq, Repr

/-- Sequential per-item loop shared by the individual path and the fallback
path of `processStoriesInBatches`: each story is passed to `inspectComponent`;
a success pushes a success outcome; a failure pushes a failure outcome and, when
`continueOnError` is false, rethrows, abandoning the rest of the batch. -/
def runIndividual (itemOp : α → Except E R) (continueOnError : Bool) :
    List α → StepOut α R E
  | [] => ⟨[], [], none⟩
  | s :: rest =>
    match itemOp s with
    | .ok r =>
      let o := runIndividual itemOp continueOnError rest
      ⟨.success (some s) r :: o.outs, .itemCall s :: o.log, o.thrown⟩
    | .error e =>
      if continueOnError then
        let o := runIndividual itemOp continueOnError rest
        ⟨.failure s e :: o.outs, .itemCall s :: o.log, o.thrown⟩
      else
        ⟨[.failure s e], [.itemCall s], some e⟩

/-- Zip performed after a successful batch call:
`batchResults.forEach((result, index) => results.push({success: true, story: batch[index], result}))`.
The iteration is over the returned results, so a short result list yields
fewer outcomes than the batch has items, and a long one reads past the end of
the batch. -/
def zipOutcomes (batch : List α) (rs : List R) : List (Outcome α R E) :=
  rs.enum.map fun p => Outcome.success batch[p.1]? p.2

/-- Processing of a single batch by `processStoriesInBatches`, including the
fallback in its catch block. A batch routes through the multi-item batch
operation only when `useBatchAPI` is set and the batch has more than one item;
otherwise every item goes through the per-item operation. On a batch-operation
failure: with `fallbackToIndividual` the items are reprocessed individually;
without it the entire batch is marked failed with the batch error (rethrown
when `continueOnError` is false). An individual-path item failure under
`continueOnError = false` is rethrown into the same catch block, which then
appends one more failure outcome for every item of the batch before
propagating the error. -/
def processOneBatch (batchOp : List α → Except E (List R)) (itemOp : α → Except E R)
    (o : PSOptions) (batch : List α) : StepOut α R E :=
  if o.useBatchAPI ∧ 1 < batch.length then
    match batchOp batch with
    | .ok rs => ⟨zipOutcomes batch rs, [.batchCall batch], none⟩
    | .error e =>
      if o.fallbackToIndividual then
        let f := runIndividual itemOp o.continueOnError batch
        ⟨f.outs, .batchCall batch :: f.log, f.thrown⟩
      else
        ⟨batch.map (fun s => .failure s e), [.batchCall batch],
          if o.continueOnError then none else some e⟩
  else
    let f := runIndividual itemOp o.continueOnError batch
    match f.thrown with
    | none => f
    | some e => ⟨f.outs ++ batch.map (fun s => .failure s e), f.log, some e⟩

/-- Main loop of `processStoriesInBatches` over the list of batches: outcomes
accumulate across batches, and an error thrown while processing a batch
rejects the whole call (the accumulated outcomes are not returned). The
invocation log records all calls made up to and including the failing batch. -/
def processBatchesLoop (batchOp : List α → Except E (List R)) (itemOp : α → Except E R)
    (o : PSOptions) : List (List α) → Except E (List (Outcome α R E)) × List (OpCall α)
  | [] => (.ok [], [])
  | b :: bs =>
    let s := processOneBatch batchOp itemOp o b
    match s.thrown with
    | some e => (.error e, s.log)
    | none =>
      let rest := processBatchesLoop batchOp itemOp o bs
      (match rest.1 with
       | .ok os => .ok (s.outs ++ os)
       | .error e => .error e,
       s.log ++ rest.2)

/-- Embedding of `processStoriesInBatches`: stories are first filtered to
those with an existing screenshot file (`hasShot` models
`story.screenshotPath && fs.existsSync(story.screenshotPath)`); an empty
filtered list returns `[]` at once; otherwise the filtered stories are
partitioned into batches of `batchSize` and processed by the loop. The model
uses the total `chunkList`, which agrees with the source's partition loop for
`batchSize ≥ 1` (see `mkBatches_eq_chunkList`); non-positive batch sizes make
the source loop diverge (`mkBatches_nonpos`). -/
def processStoriesInBatches (hasShot : α → Bool) (batchOp : List α → Except E (List R))
    (itemOp : α → Except E R) (o : PSOptions) (stories : List α) :
    Except E (List (Outcome α R E)) × List (OpCall α) :=
  let sws := stories.filter hasShot
  if sws.isEmpty then (.ok [], [])
  else processBatchesLoop batchOp itemOp o (chunkList o.batchSize sws)

/-- Errors surfaced by `inspectStories`: its own guard error
(`No stories with valid screenshot paths found`) or an error propagated out of
`processStoriesInBatches`. (The `Array.isArray` guard cannot fail in the typed
model and is not represented.) -/
inductive RunError (E : Type) where
  | noValidStories
  | opError (e : E)
  deriving DecidableEq, Repr

/-- Embedding of the public entry point `inspectStories`: an empty input
returns `[]` immediately; otherwise stories without an existing screenshot
file are filtered out, and if none remain the call throws; the remaining
stories are handed to `processStoriesInBatches`. -/
def inspectStories (hasShot : α → Bool) (batchOp : List α → Except E (List R))
    (itemOp : α → Except E R) (o : PSOptions) (stories : List α) :
    Except (RunError E) (List (Outcome α R E)) × List (OpCall α) :=
  if stories.isEmpty then (.ok [], [])
  else
    let valid := stories.filter hasShot
    if valid.isEmpty then (.error .noValidStories, [])
    else
      let r := processStoriesInBatches hasShot batchOp itemOp o valid
      (match r.1 with
       | .ok os => .ok os
       | .error e => .error (.opError e),
       r.2)

/-! Bounded-concurrency scheduler shared by `uploadFilesInParallel`,
`generateTextEmbeddingsInParallel` and the other parallel variants. Each queue
entry pairs the 0-based batch index with the payload that completing the batch
will push onto the aggregate (`results.push(...batchResult.results)`). The
payload of a batch task is determined when the task is created, so the only
nondeterminism — in what order concurrently running tasks complete — is
supplied as a schedule: one entry per pass through the race point, listing the
batch indices that settle there (sanitised so that at least one active task
settles, as `Promise.race` guarantees). -/

/-- Queue and active set of the parallel scheduler loop. -/
structure SchedState (γ : Type) where
  queue : List (Nat × γ)
  active : List (Nat × γ)
  deriving DecidableEq, Repr

/-- Observable scheduler events: a batch task being launched and a batch task
completing. -/
inductive SchedEv where
  | launch (idx : Nat)
  | complete (idx : Nat)
  deriving DecidableEq, Repr

/-- Inner launch loop:
`while (activeBatches.size < maxConcurrentBatches && batchQueue.length > 0)`
moves batches from the front of the queue into the active set, recording the
launched batch indices. -/
def launchPhaseGo (k : Nat) : List (Nat × γ) → List (Nat × γ) → SchedState γ × List Nat
  | [], active => (⟨[], active⟩, [])
  | q :: qs, active =>
    if active.length < k then
      let r := launchPhaseGo k qs (active ++ [q])
      (r.1, q.1 :: r.2)
    else (⟨q :: qs, active⟩, [])

/-- Launch phase on a scheduler state. -/
def launchPhase (k : Nat) (st : SchedState γ) : SchedState γ × List Nat :=
  launchPhaseGo k st.queue st.active

/-- Settlement at the race point: the active tasks whose batch index is listed
in the schedule entry complete (in active-set order); if the entry names no
active task, the longest-running active task completes, as some task must for
`Promise.race` to resolve. Returns the completing tasks and the remaining
active set. -/
def raceComp (entry : List Nat) (active : List (Nat × γ)) :
    List (Nat × γ) × List (Nat × γ) :=
  let c := active.filter (fun p => decide (p.1 ∈ entry))
  if c.isEmpty then (active.take 1, active.drop 1)
  else (c, active.filter (fun p => decide (p.1 ∉ entry)))

/-- Outer scheduler loop (`while (completedBatches < batches.length)`): launch
up to the concurrency ceiling, wait for at least one active task to settle,
and loop. Returns the completed `(batchIndex, payload)` pairs in completion
order together with the event trace; `none` when the fuel runs out or when no
task can ever be launched (`k = 0`), in which case the JS loop spins forever. -/
def schedLoopF (k : Nat) : Nat → List (List Nat) → SchedState γ →
    Option (List (Nat × γ) × List SchedEv)
  | 0, _, _ => none
  | fuel + 1, sched, st =>
    if st.queue.isEmpty ∧ st.active.isEmpty then some ([], [])
    else
      let lp := launchPhase k st
      if lp.1.active.isEmpty then none
      else
        let rc := raceComp (sched.headD []) lp.1.active
        match schedLoopF k fuel sched.tail ⟨lp.1.queue, rc.2⟩ with
        | none => none
        | some r =>
          some (rc.1 ++ r.1,
            lp.2.map SchedEv.launch ++ rc.1.map (fun p => SchedEv.complete p.1) ++ r.2)

/-- Running count of in-flight batch tasks along an event trace, starting from
`a` active tasks: a launch adds one, a completion removes one. -/
def inflightTrace (a : Nat) : List SchedEv → List Nat
  | [] => []
  | .launch _ :: es => (a + 1) :: inflightTrace (a + 1) es
  | .complete _ :: es => (a - 1) :: inflightTrace (a - 1) es

/-- Number of in-flight batch tasks after a whole event trace has been
applied, starting from `a` active tasks. -/
def inflightEnd (a : Nat) : List SchedEv → Nat
  | [] => a
  | .launch _ :: es => inflightEnd (a + 1) es
  | .complete _ :: es => inflightEnd (a - 1) es

/-- Successful R2 upload record `{originalPath, r2Url}`. -/
structure UpOk (α R : Type) where
  originalPath : α
  r2Url : R
  deriving DecidableEq, Repr

/-- Failed R2 upload record `{originalPath, error}`. -/
structure UpErr (α E : Type) where
  originalPath : α
  error : E
  deriving DecidableEq, Repr

/-- Embedding of the sequential `uploadFiles`: each file is uploaded in turn;
successes are collected in input order, failures are only logged and skipped,
so the returned array contains the successful uploads only. -/
def uploadFiles (upload : α → Except E R) (files : List α) : List (UpOk α R) :=
  files.filterMap fun f =>
    match upload f with
    | .ok r => some ⟨f, r⟩
    | .error _ => none

/-- Per-batch payload of `processSingleUploadBatch`: the files of the batch are
uploaded concurrently (`Promise.all` preserves batch order), then split into
the successful results and the per-file errors, both in batch order. -/
structure UpBatchOut (α R E : Type) where
  results : List (UpOk α R)
  errors : List (UpErr α E)
  deriving DecidableEq, Repr

/-- Embedding of `processSingleUploadBatch` (each per-file error is caught
inside the batch, so the batch task itself never rejects). -/
def processSingleUploadBatch (upload : α → Except E R) (batch : List α) :
    UpBatchOut α R E :=
  ⟨batch.filterMap fun f =>
      match upload f with
      | .ok r => some ⟨f, r⟩
      | .error _ => none,
    batch.filterMap fun f =>
      match upload f with
      | .ok _ => none
      | .error e => some ⟨f, e⟩⟩

/-- Embedding of `uploadFilesInParallel`: with parallelism disabled or a
concurrency ceiling of at most one it falls back to the sequential
`uploadFiles`; otherwise the batches are processed by the bounded-concurrency
scheduler and each completing batch pushes its results onto the aggregate in
completion order. Only successful uploads are returned (the error array is
logged, not returned). Also returns the scheduler event trace. -/
def uploadFilesInParallelM (upload : α → Except E R) (files : List α)
    (bs k : Nat) (enableParallel : Bool) (sched : List (List Nat)) (fuel : Nat) :
    Option (List (UpOk α R) × List SchedEv) :=
  if ¬enableParallel ∨ k ≤ 1 then some (uploadFiles upload files, [])
  else
    let queue := (chunkList bs files).enum.map fun p =>
      (p.1, processSingleUploadBatch (E := E) upload p.2)
    match schedLoopF k fuel sched ⟨queue, []⟩ with
    | none => none
    | some r => some (((r.1.map fun p => p.2.results).flatten, r.2))

/-- Result mapping of one text-embedding batch
(`processSingleTextEmbeddingBatch` and the body of the sequential
`generateTextEmbeddings`): on a successful call the returned embeddings are
zipped positionally with the batch's stories (`withEmb` attaches an embedding
to a story); a story beyond the returned count, or every story of a failed
batch, is pushed through unchanged, without an embedding. -/
def textEmbBatchResults (withEmb : α → Emb → α) (batch : List α)
    (call : Except E (List Emb)) : List α :=
  match call with
  | .ok embs =>
    batch.enum.map fun p =>
      match embs[p.1]? with
      | some e => withEmb p.2 e
      | none => p.2
  | .error _ => batch

/-- Embedding of the sequential `generateTextEmbeddings`: stories with
searchable text are batched and each batch's call results are appended in
order. -/
def generateTextEmbeddings (hasText : α → Bool) (withEmb : α → Emb → α)
    (embCall : List α → Except E (List Emb)) (stories : List α) (bs : Nat) : List α :=
  let st := stories.filter hasText
  if st.isEmpty then []
  else ((chunkList bs st).map fun b => textEmbBatchResults withEmb b (embCall b)).flatten

/-- Embedding of `generateTextEmbeddingsInParallel`: after the searchable-text
filter and the empty check, parallelism disabled or a ceiling of at most one
delegates to the sequential `generateTextEmbeddings`; otherwise the batches run
under the bounded-concurrency scheduler, aggregating in completion order. -/
def generateTextEmbeddingsInParallelM (hasText : α → Bool) (withEmb : α → Emb → α)
    (embCall : List α → Except E (List Emb)) (stories : List α)
    (bs k : Nat) (enableParallel : Bool) (sched : List (List Nat)) (fuel : Nat) :
    Option (List α × List SchedEv) :=
  let st := stories.filter hasText
  if st.isEmpty then some ([], [])
  else if ¬enableParallel ∨ k ≤ 1 then
    some (generateTextEmbeddings hasText withEmb embCall stories bs, [])
  else
    let queue := (chunkList bs st).enum.map fun p =>
      (p.1, textEmbBatchResults withEmb p.2 (embCall p.2))
    match schedLoopF k fuel sched ⟨queue, []⟩ with
    | none => none
    | some r => some ((r.1.map fun p => p.2).flatten, r.2)

/-! Concrete fixtures used to evaluate the models on small inputs (stories,
results and errors are all coded as natural numbers). -/

/-- Screenshot predicate that accepts every story. -/
def allShot : Nat → Bool := fun _ => true

/-- Screenshot predicate under which story `0` has no screenshot file. -/
def shotNonzero : Nat → Bool := fun s => s != 0

/-- Batch operation that succeeds with one result per item (the item itself). -/
def okBatchOp : List Nat → Except Nat (List Nat) := fun b => .ok b

/-- Batch operation that succeeds but returns a single result regardless of
the batch size. -/
def shortBatchOp : List Nat → Except Nat (List Nat) := fun _ => .ok [10]

/-- Batch operation that always fails with error `9`. -/
def failBatchOp : List Nat → Except Nat (List Nat) := fun _ => .error 9

/-- Item operation that always succeeds with the item itself. -/
def okItemOp : Nat → Except Nat Nat := fun s => .ok s

/-- Item operation that fails with error `5` on story `1` and succeeds
elsewhere. -/
def failOneItemOp : Nat → Except Nat Nat := fun s => if s = 1 then .error 5 else .ok s

/-- Upload operation that always succeeds, the URL being the file itself. -/
def okUpload : Nat → Except Nat Nat := fun f => .ok f

/-- Embedding call that succeeds with one embedding per text (the text
itself). -/
def embCallOk : List Nat → Except Nat (List Nat) := fun b => .ok b

/-- Attaching an embedding to a story, coded on naturals. -/
def withEmbAdd : Nat → Nat → Nat := fun s e => 100 * s + e

/-! Theorems. First the batcher: its terminating and diverging regimes. -/

theorem chunkList_nil (bs : Nat) : chunkList bs ([] : List α) = [] := rfl

/-- The worker of `chunkList` does not depend on the exact amount of fuel, as
long as the fuel bounds the list length. -/
theorem chunkAux_congr (bs : Nat) :
    ∀ (l : List α) (f₁ f₂ : Nat), l.length ≤ f₁ → l.length ≤ f₂ →
      chunkAux bs f₁ l = chunkAux bs f₂ l
  | [], f₁, f₂, _, _ => by cases f₁ <;> cases f₂ <;> rfl
  | x :: xs, f₁, f₂, h₁, h₂ => by
    obtain ⟨g₁, rfl⟩ : ∃ g, f₁ = g + 1 := by
      cases f₁ with
      | zero => simp at h₁
      | succ g => exact ⟨g, rfl⟩
    obtain ⟨g₂, rfl⟩ : ∃ g, f₂ = g + 1 := by
      cases f₂ with
      | zero => simp at h₂
      | succ g => exact ⟨g, rfl⟩
    by_cases hbs : bs = 0
    · simp [chunkAux, hbs]
    · simp only [chunkAux, if_neg hbs]
      have hlen : ((x :: xs).drop bs).length ≤ g₁ ∧ ((x :: xs).drop bs).length ≤ g₂ := by
        simp only [List.length_drop, List.length_cons] at h₁ h₂ ⊢
        omega
      rw [chunkAux_congr bs ((x :: xs).drop bs) g₁ g₂ hlen.1 hlen.2]
  termination_by l => l.length
  decreasing_by simp [List.length_drop]; omega

theorem chunkList_cons (bs : Nat) (hbs : bs ≠ 0) (x : α) (xs : List α) :
    chunkList bs (x :: xs) = (x :: xs).take bs :: chunkList bs ((x :: xs).drop bs) := by
  show chunkAux bs (xs.length + 1) (x :: xs) = _
  simp only [chunkAux, if_neg hbs]
  rw [chunkAux_congr bs ((x :: xs).drop bs) xs.length ((x :: xs).drop bs).length
    (by simp only [List.length_drop, List.length_cons]; omega) le_rfl]
  rfl

theorem chunkList_ne_nil (bs : Nat) (hbs : bs ≠ 0) (l : List α) (hl : l ≠ []) :
    chunkList bs l = l.take bs :: chunkList bs (l.drop bs) := by
  cases l with
  | nil => exact absurd rfl hl
  | cons x xs => exact chunkList_cons bs hbs x xs

/-- Concatenating the chunks in order reproduces the input exactly. -/
theorem chunkList_flatten (bs : Nat) (hbs : 1 ≤ bs) :
    ∀ l : List α, (chunkList bs l).flatten = l
  | [] => rfl
  | x :: xs => by
    rw [chunkList_cons bs (by omega) x xs]
    have ih := chunkList_flatten bs hbs ((x :: xs).drop bs)
    simp [ih]
  termination_by l => l.length
  decreasing_by simp [List.length_drop]; omega

/-- Every chunk is a nonempty contiguous run of the input of length at most `bs`. -/
theorem chunkList_mem_length (bs : Nat) (hbs : 1 ≤ bs) :
    ∀ (l : List α) (b : List α), b ∈ chunkList bs l → b ≠ [] ∧ b.length ≤ bs
  | [], b, hb => by simp [chunkList, chunkAux] at hb
  | x :: xs, b, hb => by
    rw [chunkList_cons bs (by omega) x xs] at hb
    rcases List.mem_cons.mp hb with h | h
    · subst h
      constructor
      · simp [List.take, hbs]
        omega
      · exact List.length_take_le bs (x :: xs)
    · exact chunkList_mem_length bs hbs ((x :: xs).drop bs) b h
  termination_by l => l.length
  decreasing_by simp [List.length_drop]; omega

/-- Every element of every chunk is an element of the input list. -/
theorem chunkList_mem_mem (bs : Nat) :
    ∀ (l : List α) (b : List α), b ∈ chunkList bs l → ∀ s ∈ b, s ∈ l
  | [], b, hb => by simp [chunkList, chunkAux] at hb
  | x :: xs, b, hb => by
    by_cases hbs : bs = 0
    · subst hbs; simp [chunkList, chunkAux] at hb
    rw [chunkList_cons bs hbs x xs] at hb
    intro s hs
    rcases List.mem_cons.mp hb with h | h
    · subst h
      exact List.mem_of_mem_take hs
    · exact List.mem_of_mem_drop (chunkList_mem_mem bs ((x :: xs).drop bs) b h s hs)
  termination_by l => l.length
  decreasing_by simp [List.length_drop]; omega

/-- With `batchSize = 1`, every chunk is a single item. -/
theorem chunkList_one_mem (l : List α) (b : List α) (hb : b ∈ chunkList 1 l) :
    b.length = 1 := by
  have h := chunkList_mem_length 1 (by omega) l b hb
  rcases h with ⟨hne, hle⟩
  cases b with
  | nil => exact absurd rfl hne
  | cons y ys =>
    simp only [List.length_cons] at hle ⊢
    omega

/-- With a non-positive `batchSize` and a non-empty input, the partition loop
never terminates: the loop index never increases, so for every amount of fuel
the loop is still running. There is no configuration validation in the source
and no configuration error is ever signalled. -/
theorem mkBatchesF_nonpos (batchSize : Int) (files : List α)
    (hbs : batchSize ≤ 0) (hne : files ≠ []) :
    ∀ (fuel : Nat) (i : Int), i ≤ 0 → ∀ acc, mkBatchesF batchSize files fuel i acc = none := by
  intro fuel
  induction fuel with
  | zero => intro i _ acc; rfl
  | succ n ih =>
    intro i hi acc
    have hlen : 1 ≤ (files.length : Int) := by
      have : files.length ≠ 0 := by
        simpa [List.length_eq_zero] using hne
      omega
    have hcond : i < (files.length : Int) := by omega
    simp only [mkBatchesF, if_pos hcond]
    exact ih (i + batchSize) (by omega) _

/-- Spelled out at the entry point: with `batchSize ≤ 0` on non-empty input,
`mkBatches` runs out of any amount of fuel. -/
theorem mkBatches_nonpos (batchSize : Int) (files : List α)
    (hbs : batchSize ≤ 0) (hne : files ≠ []) (fuel : Nat) :
    mkBatches batchSize files fuel = none :=
  mkBatchesF_nonpos batchSize files hbs hne fuel 0 le_rfl []

/-- The slice taken by the partition loop at a nonnegative index is a take
after a drop. -/
theorem sliceJS_nonneg (l : List α) (i k : Int) (hi : 0 ≤ i) (hk : 0 ≤ k) :
    sliceJS l i (i + k) = (l.drop i.toNat).take k.toNat := by
  have hni : ¬ i < 0 := by omega
  have hne : ¬ i + k < 0 := by omega
  simp only [sliceJS, hni, hne, if_false]
  by_cases hin : i ≤ (l.length : Int)
  · rw [min_eq_left hin, List.take_eq_take]
    simp only [List.length_drop]
    omega
  · rw [min_eq_right (by omega : (l.length : Int) ≤ i),
      min_eq_right (by omega : (l.length : Int) ≤ i + k)]
    rw [List.drop_eq_nil_of_le (by simp), List.drop_eq_nil_of_le (by omega)]
    simp

/-- In the terminating regime (`batchSize ≥ 1`), the partition loop computes
exactly the chunks of the still-unprocessed suffix, appended to the
accumulator. -/
theorem mkBatchesF_pos (bs : Int) (hbs : 1 ≤ bs) (files : List α) :
    ∀ (fuel : Nat) (i : Int), 0 ≤ i → (files.drop i.toNat).length < fuel →
      ∀ acc, mkBatchesF bs files fuel i acc
        = some (acc ++ chunkList bs.toNat (files.drop i.toNat)) := by
  intro fuel
  induction fuel with
  | zero => intro i hi hlt; omega
  | succ n ih =>
    intro i hi hlt acc
    by_cases hcond : i < (files.length : Int)
    · have hslice : sliceJS files i (i + bs) = (files.drop i.toNat).take bs.toNat :=
        sliceJS_nonneg files i bs hi (by omega)
      have hlen : (files.drop i.toNat).length = files.length - i.toNat := by
        simp [List.length_drop]
      have hdropne : files.drop i.toNat ≠ [] := by
        intro hnil
        rw [hnil] at hlen
        simp at hlen
        omega
      have htn : (i + bs).toNat = i.toNat + bs.toNat := by omega
      have hdd : files.drop (i + bs).toNat = (files.drop i.toNat).drop bs.toNat := by
        rw [htn, List.drop_drop, Nat.add_comm]
      simp only [mkBatchesF, if_pos hcond, hslice]
      rw [ih (i + bs) (by omega) (by
        rw [hdd]
        simp only [List.length_drop]
        omega)]
      rw [hdd, chunkList_ne_nil bs.toNat (by omega) _ hdropne]
      simp

    · have hdrop : files.drop i.toNat = [] :=
        List.drop_eq_nil_of_le (by omega)
      simp only [mkBatchesF, if_neg hcond, hdrop, chunkList_nil, List.append_nil]

/-- With `batchSize ≥ 1` the partition loop terminates (given fuel beyond the
input length) and produces the chunks of the input, so batch partitioning has
no failure mode in that regime. -/
theorem mkBatches_eq_chunkList (bs : Int) (files : List α) (fuel : Nat)
    (hbs : 1 ≤ bs) (hfuel : files.length < fuel) :
    mkBatches bs files fuel = some (chunkList bs.toNat files) := by
  have h := mkBatchesF_pos bs hbs files fuel 0 le_rfl (by simpa using hfuel) []
  simpa [mkBatches] using h

/-! Lemmas about the sequential per-item loop. -/

/-- With `continueOnError = true` the per-item loop records one independent
outcome per item, invokes the item operation once per item in order, and never
throws. -/
theorem runIndividual_true (itemOp : α → Except E R) :
    ∀ l : List α, runIndividual itemOp true l
      = ⟨l.map (itemOutcome itemOp), l.map OpCall.itemCall, none⟩
  | [] => rfl
  | s :: rest => by
    have ih := runIndividual_true itemOp rest
    cases h : itemOp s with
    | ok r => simp [runIndividual, h, ih, itemOutcome]
    | error e => simp [runIndividual, h, ih, itemOutcome]

/-- The per-item loop splits over list concatenation when errors are
continued past. -/
theorem runIndividual_true_append (itemOp : α → Except E R) (l₁ l₂ : List α) :
    runIndividual itemOp true (l₁ ++ l₂)
      = ⟨(runIndividual itemOp true l₁).outs ++ (runIndividual itemOp true l₂).outs,
         (runIndividual itemOp true l₁).log ++ (runIndividual itemOp true l₂).log,
         none⟩ := by
  simp [runIndividual_true]

/-- When the per-item loop does not throw, it has recorded exactly one outcome
per item. -/
theorem runIndividual_length (itemOp : α → Except E R) (c : Bool) :
    ∀ l : List α, (runIndividual itemOp c l).thrown = none →
      (runIndividual itemOp c l).outs.length = l.length
  | [], _ => rfl
  | s :: rest, h => by
    cases hop : itemOp s with
    | ok r =>
      simp only [runIndividual, hop] at h ⊢
      simpa using runIndividual_length itemOp c rest h
    | error e =>
      cases hc : c with
      | true =>
        subst hc
        simp only [runIndividual, hop, if_pos rfl] at h ⊢
        simpa using runIndividual_length itemOp true rest h
      | false =>
        subst hc
        simp [runIndividual, hop] at h

/-- Every call logged by the per-item loop is an item call on one of its
items. -/
theorem runIndividual_log (itemOp : α → Except E R) (c : Bool) :
    ∀ l : List α, ∀ x ∈ (runIndividual itemOp c l).log, ∃ s ∈ l, x = OpCall.itemCall s
  | [], x, hx => by simp [runIndividual] at hx
  | s :: rest, x, hx => by
    cases hop : itemOp s with
    | ok r =>
      simp only [runIndividual, hop] at hx
      rcases List.mem_cons.mp hx with h | h
      · exact ⟨s, by simp, h⟩
      · obtain ⟨t, ht, hxt⟩ := runIndividual_log itemOp c rest x h
        exact ⟨t, by simp [ht], hxt⟩
    | error e =>
      cases hc : c with
      | true =>
        subst hc
        simp only [runIndividual, hop, if_pos rfl] at hx
        rcases List.mem_cons.mp hx with h | h
        · exact ⟨s, by simp, h⟩
        · obtain ⟨t, ht, hxt⟩ := runIndividual_log itemOp true rest x h
          exact ⟨t, by simp [ht], hxt⟩
      | false =>
        subst hc
        simp [runIndividual, hop] at hx
        exact ⟨s, by simp, hx⟩

/-- When the per-item loop runs with `continueOnError = false` and does not
throw, every recorded outcome is a success. -/
theorem runIndividual_false_success (itemOp : α → Except E R) :
    ∀ l : List α, (runIndividual itemOp false l).thrown = none →
      ∀ x ∈ (runIndividual itemOp false l).outs, x.isSuccess = true
  | [], _, x, hx => by simp [runIndividual] at hx
  | s :: rest, h, x, hx => by
    cases hop : itemOp s with
    | ok r =>
      simp only [runIndividual, hop] at h hx
      rcases List.mem_cons.mp hx with hh | hh
      · subst hh; rfl
      · exact runIndividual_false_success itemOp rest h x hh
    | error e =>
      simp [runIndividual, hop] at h

/-- With `continueOnError = false`, a failure of the item operation on the
first item throws that error at once: the rest of the list is not processed. -/
theorem runIndividual_false_first_failure (itemOp : α → Except E R) (s : α)
    (rest : List α) (e : E) (hop : itemOp s = .error e) :
    runIndividual itemOp false (s :: rest)
      = ⟨[.failure s e], [.itemCall s], some e⟩ := by
  simp [runIndividual, hop]

/-! Lemmas about single-batch processing and the batch loop. -/

/-- Every outcome produced by the success zip is a success. -/
theorem zipOutcomes_success (batch : List α) (rs : List R) :
    ∀ x ∈ (zipOutcomes batch rs : List (Outcome α R E)), x.isSuccess = true := by
  intro x hx
  simp only [zipOutcomes, List.mem_map] at hx
  obtain ⟨p, _, hp⟩ := hx
  subst hp
  rfl

/-- The success zip produces exactly one outcome per returned result. -/
theorem zipOutcomes_length (batch : List α) (rs : List R) :
    (zipOutcomes batch rs : List (Outcome α R E)).length = rs.length := by
  simp [zipOutcomes]

/-- When a batch's processing does not throw and the batch operation returns
one result per item on success, the batch contributes exactly one outcome per
item. -/
theorem processOneBatch_length (batchOp : List α → Except E (List R))
    (itemOp : α → Except E R) (o : PSOptions) (batch : List α)
    (hwb : ∀ rs, batchOp batch = .ok rs → rs.length = batch.length)
    (h : (processOneBatch batchOp itemOp o batch).thrown = none) :
    (processOneBatch batchOp itemOp o batch).outs.length = batch.length := by
  unfold processOneBatch at h ⊢
  by_cases hc : o.useBatchAPI ∧ 1 < batch.length
  · simp only [if_pos hc] at h ⊢
    cases hbo : batchOp batch with
    | ok rs =>
      simp only [hbo]
      simp [zipOutcomes, hwb rs hbo]
    | error e =>
      simp only [hbo] at h ⊢
      by_cases hf : o.fallbackToIndividual = true
      · simp only [if_pos hf] at h ⊢
        exact runIndividual_length itemOp o.continueOnError batch h
      · simp only [if_neg hf] at h ⊢
        simp
  · simp only [if_neg hc] at h ⊢
    cases hth : (runIndividual itemOp o.continueOnError batch).thrown with
    | none =>
      simp only [hth] at h ⊢
      exact runIndividual_length itemOp o.continueOnError batch hth
    | some e => simp [hth] at h

/-- Every call logged while processing a batch is either the batch call on
that very batch or an item call on one of its items. -/
theorem processOneBatch_log (batchOp : List α → Except E (List R))
    (itemOp : α → Except E R) (o : PSOptions) (batch : List α) :
    ∀ x ∈ (processOneBatch batchOp itemOp o batch).log,
      x = OpCall.batchCall batch ∨ ∃ s ∈ batch, x = OpCall.itemCall s := by
  intro x hx
  unfold processOneBatch at hx
  by_cases hc : o.useBatchAPI ∧ 1 < batch.length
  · simp only [if_pos hc] at hx
    cases hbo : batchOp batch with
    | ok rs =>
      simp only [hbo] at hx
      simp at hx
      exact Or.inl hx
    | error e =>
      simp only [hbo] at hx
      by_cases hf : o.fallbackToIndividual = true
      · simp only [if_pos hf] at hx
        simp only [List.mem_cons] at hx
        rcases hx with h | h
        · exact Or.inl h
        · exact Or.inr (runIndividual_log itemOp o.continueOnError batch x h)
      · simp only [if_neg hf] at hx
        simp at hx
        exact Or.inl hx
  · simp only [if_neg hc] at hx
    cases hth : (runIndividual itemOp o.continueOnError batch).thrown with
    | none =>
      simp only [hth] at hx
      exact Or.inr (runIndividual_log itemOp o.continueOnError batch x hx)
    | some e =>
      simp only [hth] at hx
      exact Or.inr (runIndividual_log itemOp o.continueOnError batch x hx)

/-- With `continueOnError = false`, a batch whose processing does not throw
has produced only success outcomes. -/
theorem processOneBatch_false_success (batchOp : List α → Except E (List R))
    (itemOp : α → Except E R) (o : PSOptions) (batch : List α)
    (hc : o.continueOnError = false)
    (h : (processOneBatch batchOp itemOp o batch).thrown = none) :
    ∀ x ∈ (processOneBatch batchOp itemOp o batch).outs, x.isSuccess = true := by
  intro x hx
  unfold processOneBatch at h hx
  by_cases hb : o.useBatchAPI ∧ 1 < batch.length
  · simp only [if_pos hb] at h hx
    cases hbo : batchOp batch with
    | ok rs =>
      simp only [hbo] at hx
      exact zipOutcomes_success batch rs x hx
    | error e =>
      simp only [hbo] at h hx
      by_cases hf : o.fallbackToIndividual = true
      · simp only [if_pos hf] at h hx
        rw [hc] at h hx
        exact runIndividual_false_success itemOp batch h x hx
      · simp only [if_neg hf, hc] at h
        simp at h
  · simp only [if_neg hb] at h hx
    cases hth : (runIndividual itemOp o.continueOnError batch).thrown with
    | none =>
      simp only [hth] at h hx
      rw [hc] at hth hx
      exact runIndividual_false_success itemOp batch hth x hx
    | some e => simp [hth] at h

/-- Under an always-failing batch operation with fallback enabled and errors
continued past, a batch's processing never throws and records exactly the
per-item outcomes of the fallback. -/
theorem processOneBatch_fallback (batchOp : List α → Except E (List R))
    (itemOp : α → Except E R) (o : PSOptions) (batch : List α)
    (hc : o.continueOnError = true) (hf : o.fallbackToIndividual = true)
    (hbo : ∀ b : List α, 1 < b.length → ∃ e, batchOp b = .error e) :
    (processOneBatch batchOp itemOp o batch).outs = batch.map (itemOutcome itemOp) ∧
      (processOneBatch batchOp itemOp o batch).thrown = none := by
  unfold processOneBatch
  by_cases hb : o.useBatchAPI ∧ 1 < batch.length
  · obtain ⟨e, he⟩ := hbo batch hb.2
    simp [if_pos hb, he, hf, hc, runIndividual_true]
  · rw [hc]
    simp [if_neg hb, runIndividual_true]

/-! Lemmas about the loop over all batches. -/

/-- When the loop returns an outcome collection, it contains one outcome per
item of every batch (assuming the batch operation returns one result per item
on success). -/
theorem processBatchesLoop_length (batchOp : List α → Except E (List R))
    (itemOp : α → Except E R) (o : PSOptions)
    (hwb : ∀ (b : List α) (rs : List R), batchOp b = .ok rs → rs.length = b.length) :
    ∀ (bs : List (List α)) (os : List (Outcome α R E)),
      (processBatchesLoop batchOp itemOp o bs).1 = .ok os →
      os.length = (bs.map List.length).sum := by
  intro bs
  induction bs with
  | nil =>
    intro os h
    simp only [processBatchesLoop] at h
    cases h
    simp
  | cons b rest ih =>
    intro os h
    simp only [processBatchesLoop] at h
    cases hth : (processOneBatch batchOp itemOp o b).thrown with
    | some e => rw [hth] at h; simp at h
    | none =>
      rw [hth] at h
      cases hr : (processBatchesLoop batchOp itemOp o rest).1 with
      | ok os2 =>
        rw [hr] at h
        simp only [Except.ok.injEq] at h
        subst h
        have h1 := processOneBatch_length batchOp itemOp o b (hwb b) hth
        have h2 := ih os2 hr
        simp [h1, h2]
      | error e => rw [hr] at h; simp at h

/-- Every call logged by the loop belongs to the processing of one of its
batches. -/
theorem processBatchesLoop_log (batchOp : List α → Except E (List R))
    (itemOp : α → Except E R) (o : PSOptions) :
    ∀ bs : List (List α), ∀ x ∈ (processBatchesLoop batchOp itemOp o bs).2,
      ∃ b ∈ bs, x ∈ (processOneBatch batchOp itemOp o b).log := by
  intro bs
  induction bs with
  | nil => intro x hx; simp [processBatchesLoop] at hx
  | cons b rest ih =>
    intro x hx
    simp only [processBatchesLoop] at hx
    cases hth : (processOneBatch batchOp itemOp o b).thrown with
    | some e =>
      rw [hth] at hx
      exact ⟨b, by simp, hx⟩
    | none =>
      rw [hth] at hx
      simp only [List.mem_append] at hx
      rcases hx with h | h
      · exact ⟨b, by simp, h⟩
      · obtain ⟨b2, hb2, hxb⟩ := ih x h
        exact ⟨b2, by simp [hb2], hxb⟩

/-- With `continueOnError = false`, an outcome collection returned by the loop
contains only successes. -/
theorem processBatchesLoop_false_success (batchOp : List α → Except E (List R))
    (itemOp : α → Except E R) (o : PSOptions) (hc : o.continueOnError = false) :
    ∀ (bs : List (List α)) (os : List (Outcome α R E)),
      (processBatchesLoop batchOp itemOp o bs).1 = .ok os →
      ∀ x ∈ os, x.isSuccess = true := by
  intro bs
  induction bs with
  | nil =>
    intro os h x hx
    simp only [processBatchesLoop] at h
    cases h
    simp at hx
  | cons b rest ih =>
    intro os h x hx
    simp only [processBatchesLoop] at h
    cases hth : (processOneBatch batchOp itemOp o b).thrown with
    | some e => rw [hth] at h; simp at h
    | none =>
      rw [hth] at h
      cases hr : (processBatchesLoop batchOp itemOp o rest).1 with
      | ok os2 =>
        rw [hr] at h
        simp only [Except.ok.injEq] at h
        subst h
        rcases List.mem_append.mp hx with hh | hh
        · exact processOneBatch_false_success batchOp itemOp o b hc hth x hh
        · exact ih os2 hr x hh
      | error e => rw [hr] at h; simp at h

/-- When no batch's processing throws and each batch contributes the per-item
outcomes of its items, the loop succeeds with the concatenation of those
outcomes. -/
theorem processBatchesLoop_map (batchOp : List α → Except E (List R))
    (itemOp : α → Except E R) (o : PSOptions)
    (hall : ∀ b : List α, (processOneBatch batchOp itemOp o b).outs = b.map (itemOutcome itemOp) ∧
      (processOneBatch batchOp itemOp o b).thrown = none) :
    ∀ bs : List (List α), (processBatchesLoop batchOp itemOp o bs).1
      = .ok (bs.flatten.map (itemOutcome itemOp)) := by
  intro bs
  induction bs with
  | nil => simp [processBatchesLoop]
  | cons b rest ih =>
    simp only [processBatchesLoop]
    rw [(hall b).2, ih, (hall b).1]
    simp

/-! Claim C6: configuration with a non-positive batch size. -/

/-- Claim C6 is false on the code: with `batchSize = 0` (or negative) and a
non-empty input, the engine does not fail fast with a configuration error
before any batch runs — the batch-partition loop simply never terminates
(here: it is still running after 50 iterations, and `mkBatches_nonpos` shows
it runs forever). -/
theorem claim6_failfast_cex :
    mkBatches 0 ([0] : List Nat) 50 = none ∧ mkBatches (-3) ([0, 1] : List Nat) 50 = none :=
  ⟨mkBatches_nonpos 0 [0] (by decide) (by decide) 50,
   mkBatches_nonpos (-3) [0, 1] (by decide) (by decide) 50⟩

/-- Claim C6 (amended): with `batchSize ≤ 0` and non-empty input there is no
fail-fast configuration error — batch partitioning loops forever (for every
amount of fuel it is still running), and no batch or item operation is ever
invoked because partitioning never completes; with `batchSize ≥ 1`
partitioning always succeeds, producing the chunks of the input, so it has no
other failure mode. -/
theorem claim6_failfast_amended (bs : Int) (files : List α) (fuel : Nat) :
    (bs ≤ 0 → files ≠ [] → mkBatches bs files fuel = none) ∧
    (1 ≤ bs → files.length < fuel → mkBatches bs files fuel = some (chunkList bs.toNat files)) :=
  ⟨fun h1 h2 => mkBatches_nonpos bs files h1 h2 fuel,
   fun h1 h2 => mkBatches_eq_chunkList bs files fuel h1 h2⟩

theorem claim6_failfast_amended_witness :
    mkBatches 0 ([0] : List Nat) 5 = none ∧
    mkBatches 2 ([0, 1, 2] : List Nat) 5 = some [[0, 1], [2]] := by
  constructor
  · exact (claim6_failfast_amended 0 [0] 5).1 (by decide) (by decide)
  · rw [(claim6_failfast_amended 2 ([0, 1, 2] : List Nat) 5).2 (by decide) (by decide)]
    decide

/-! Claim C2: one outcome per input item. -/

/-- Claim C2 is false on the code: a story whose screenshot file does not
exist is filtered out before batching and receives no outcome, so the run on
the one-story input `[0]` (story `0` having no screenshot) returns an empty
outcome collection of length `0 ≠ 1`. -/
theorem claim2_count_cex :
    (processStoriesInBatches shotNonzero okBatchOp okItemOp {} [0]).1 = Except.ok []
    ∧ ([] : List (Outcome Nat Nat Nat)).length ≠ [(0 : Nat)].length := by
  constructor
  · rfl
  · decide

/-- Claim C2 (amended): whenever the run returns an outcome collection (and
the batch operation returns one result per item on success, with a positive
batch size), the collection has exactly one ItemOutcome per item that passed
the screenshot filter — so it equals the input length only when every input
item has a screenshot; filtered-out items receive no outcome. -/
theorem claim2_count_amended (hasShot : α → Bool) (batchOp : List α → Except E (List R))
    (itemOp : α → Except E R) (o : PSOptions) (stories : List α)
    (os : List (Outcome α R E))
    (hwb : ∀ (b : List α) (rs : List R), batchOp b = .ok rs → rs.length = b.length)
    (hbs : 1 ≤ o.batchSize)
    (h : (processStoriesInBatches hasShot batchOp itemOp o stories).1 = .ok os) :
    os.length = (stories.filter hasShot).length := by
  unfold processStoriesInBatches at h
  by_cases he : (stories.filter hasShot).isEmpty
  · simp only [he, if_true] at h
    cases h
    rw [List.isEmpty_iff] at he
    simp [he]
  · simp only [he, if_false] at h
    rw [processBatchesLoop_length batchOp itemOp o hwb _ os h]
    rw [← List.length_flatten, chunkList_flatten o.batchSize hbs]

theorem claim2_count_amended_witness :
    ([Outcome.success (some 1) 1, Outcome.success (some 2) 2] : List (Outcome Nat Nat Nat)).length
      = ([1, 2].filter shotNonzero).length := by
  refine claim2_count_amended shotNonzero okBatchOp okItemOp {} [1, 2] _ ?_ ?_ ?_
  · intro b rs h
    simp only [okBatchOp, Except.ok.injEq] at h
    rw [← h]
  · decide
  · rfl

/-! Claim C5: batch operation succeeding with fewer results than items. -/

/-- Claim C5 is false on the code: on the batch `[1, 2, 3]` whose batch
operation succeeds with the single result `10`, the run records exactly one
success outcome; the remaining items `2` and `3` are not marked Failure with
an incomplete-batch error — they receive no outcome at all. -/
theorem claim5_short_batch_cex :
    (processStoriesInBatches allShot shortBatchOp okItemOp {} [1, 2, 3]).1
      = Except.ok [Outcome.success (some 1) 10]
    ∧ ([Outcome.success (some 1) 10] : List (Outcome Nat Nat Nat)).length ≠ 3 := by
  constructor
  · rfl
  · decide

/-- Claim C5 (amended): when the batch operation succeeds with fewer results
than the batch has items, the results are zipped with the batch's items in
order, each paired item receiving a Success outcome, but the remaining
trailing items are not marked Failure: in `processStoriesInBatches` they
receive no outcome at all (the batch contributes exactly one outcome per
returned result), and in the embedding variants
(`processSingleTextEmbeddingBatch`) they are passed through unchanged, without
an embedding and without an error. -/
theorem claim5_short_batch_amended (batchOp : List α → Except E (List R))
    (itemOp : α → Except E R) (o : PSOptions) (batch : List α) (rs : List R)
    (withEmb : β → Emb → β) (ebatch : List β) (embs : List Emb)
    (hb : o.useBatchAPI = true) (hlen : 1 < batch.length)
    (hok : batchOp batch = .ok rs) :
    (processOneBatch batchOp itemOp o batch).outs = zipOutcomes batch rs
    ∧ (processOneBatch batchOp itemOp o batch).outs.length = rs.length
    ∧ (∀ i : Nat, (zipOutcomes batch rs : List (Outcome α R E))[i]?
        = rs[i]?.map fun r => Outcome.success batch[i]? r)
    ∧ (∀ i : Nat, embs.length ≤ i →
        (textEmbBatchResults withEmb ebatch (Except.ok embs : Except E (List Emb)))[i]?
          = ebatch[i]?) := by
  have houts : (processOneBatch batchOp itemOp o batch).outs = zipOutcomes batch rs := by
    unfold processOneBatch
    rw [if_pos ⟨hb, hlen⟩, hok]
  refine ⟨houts, ?_, ?_, ?_⟩
  · rw [houts, zipOutcomes_length]
  · intro i
    simp only [zipOutcomes, List.getElem?_map, List.getElem?_enum]
    cases rs[i]? <;> rfl
  · intro i hi
    have hnone : embs[i]? = none := by
      rw [List.getElem?_eq_none_iff]
      omega
    simp only [textEmbBatchResults, List.getElem?_map, List.getElem?_enum]
    cases ebatch[i]? <;> simp [hnone]

theorem claim5_short_batch_amended_witness :
    (processOneBatch shortBatchOp okItemOp {} [1, 2, 3]).outs
        = zipOutcomes [1, 2, 3] [10]
    ∧ (processOneBatch shortBatchOp okItemOp {} [1, 2, 3]).outs.length = [10].length
    ∧ ((zipOutcomes [1, 2, 3] [10] : List (Outcome Nat Nat Nat))[1]?
        = [10][1]?.map fun r => Outcome.success [1, 2, 3][1]? r)
    ∧ ((textEmbBatchResults (fun (s : Nat) (e : Nat) => s + e) [4, 5]
          (Except.ok [7] : Except Nat (List Nat)))[1]? = [4, 5][1]?) := by
  have h := claim5_short_batch_amended shortBatchOp okItemOp {} [1, 2, 3] [10]
    (fun (s : Nat) (e : Nat) => s + e) [4, 5] [7] rfl (by decide) rfl
  exact ⟨h.1, h.2.1, h.2.2.1 1, h.2.2.2 1 (by decide)⟩

/-! Claim C7: abort on error with `continueOnError = false`. -/

/-- Claim C7 is false on the code: with `continueOnError = false`, a
batch-operation failure that is recovered by the per-item fallback does not
reject the run — here the batch operation fails on `[1, 2]`, both fallback
item calls succeed, and the run returns a full success collection instead of
throwing. -/
theorem claim7_abort_cex :
    (processStoriesInBatches allShot failBatchOp okItemOp
        { continueOnError := false } [1, 2]).1
      = Except.ok [Outcome.success (some 1) 1, Outcome.success (some 2) 2] := rfl

/-- Claim C7 (amended): with `continueOnError = false`, the first failure not
recovered by fallback — an item-operation failure, or a batch-operation
failure when fallback is unavailable — causes the run to throw that error,
and a returned outcome collection is never in a mixed undetermined state:
(i) any collection the caller receives contains only successes; (ii) an error
thrown while processing a batch rejects the whole run with that error;
(iii) an item-operation failure on a single-item batch throws its error;
(iv) a batch-operation failure with `fallbackToIndividual = false` throws its
error. A batch-operation failure recovered by per-item fallback, however, does
not abort the run (see the counterexample). -/
theorem claim7_abort_amended (batchOp : List α → Except E (List R)) (itemOp : α → Except E R)
    (o : PSOptions) (stories : List α) (hasShot : α → Bool)
    (hc : o.continueOnError = false) :
    (∀ os, (processStoriesInBatches hasShot batchOp itemOp o stories).1 = .ok os →
      ∀ x ∈ os, x.isSuccess = true)
    ∧ (∀ (b : List α) (bs : List (List α)) (e : E),
        (processOneBatch batchOp itemOp o b).thrown = some e →
        (processBatchesLoop batchOp itemOp o (b :: bs)).1 = .error e)
    ∧ (∀ (s : α) (e : E), itemOp s = .error e →
        (processOneBatch batchOp itemOp o [s]).thrown = some e)
    ∧ (∀ (b : List α) (e : E), o.fallbackToIndividual = false → o.useBatchAPI = true →
        1 < b.length → batchOp b = .error e →
        (processOneBatch batchOp itemOp o b).thrown = some e) := by
  refine ⟨?_, ?_, ?_, ?_⟩
  · intro os h x hx
    unfold processStoriesInBatches at h
    by_cases he : (stories.filter hasShot).isEmpty
    · simp only [he, if_true] at h
      cases h
      simp at hx
    · simp only [he, if_false] at h
      exact processBatchesLoop_false_success batchOp itemOp o hc _ os h x hx
  · intro b bs e h
    simp only [processBatchesLoop, h]
  · intro s e hop
    have hcond : ¬(o.useBatchAPI = true ∧ 1 < ([s] : List α).length) := by
      simp
    unfold processOneBatch
    rw [if_neg hcond, hc, runIndividual_false_first_failure itemOp s [] e hop]
  · intro b e hf hb hlen hbo
    simp [processOneBatch, hb, hlen, hbo, hf, hc]

theorem claim7_abort_amended_witness :
    (Outcome.success (some 2) 2 : Outcome Nat Nat Nat).isSuccess = true
    ∧ (processBatchesLoop failBatchOp failOneItemOp { continueOnError := false } [[1, 2]]).1
        = Except.error 5
    ∧ (processOneBatch failBatchOp failOneItemOp { continueOnError := false } [1]).thrown
        = some 5
    ∧ (processOneBatch failBatchOp failOneItemOp
        { continueOnError := false, fallbackToIndividual := false } [1, 2]).thrown = some 9 := by
  have h := claim7_abort_amended failBatchOp failOneItemOp { continueOnError := false }
    [2, 3] allShot rfl
  have h2 := claim7_abort_amended failBatchOp failOneItemOp
    { continueOnError := false, fallbackToIndividual := false } ([] : List Nat) allShot rfl
  refine ⟨?_, ?_, ?_, ?_⟩
  · exact h.1 [Outcome.success (some 2) 2, Outcome.success (some 3) 3] rfl
      (Outcome.success (some 2) 2) (by simp)
  · exact h.2.1 [1, 2] [] 5 rfl
  · exact h.2.2.1 1 5 rfl
  · exact h2.2.2.2 [1, 2] 9 rfl rfl (by decide) rfl

/-! Claim C3: the fallback path. -/

/-- Claim C3 is false on the code as universally stated: with
`continueOnError = false`, the fallback does not continue past individual item
failures — on the failed batch `[1, 2]` the item operation is invoked only on
item `1` (which fails, aborting the run); item `2` is never processed and no
outcome is recorded for it. -/
theorem claim3_fallback_cex :
    processStoriesInBatches allShot failBatchOp failOneItemOp
        { continueOnError := false } [1, 2]
      = (Except.error 5, [OpCall.batchCall [1, 2], OpCall.itemCall 1])
    ∧ OpCall.itemCall 2 ∉ [OpCall.batchCall [1, 2], OpCall.itemCall (1 : Nat)] := by
  constructor
  · rfl
  · decide

/-- Claim C3 (amended): under `continueOnError = true` the fallback behaves as
claimed: (i) it is triggered exactly on a failed multi-item batch call with
`fallbackToIndividual = true` (with `useBatchAPI` necessarily set for the
batch call to have happened), invoking the per-item operation sequentially
once per item and recording each item's outcome independently; (ii) with
`fallbackToIndividual = false` no per-item call is made, the whole batch being
marked failed with the batch error; (iii) if the batch operation always fails
and fallback is enabled, the outcomes equal those of running the item
operation on every item sequentially. -/
theorem claim3_fallback_amended (batchOp : List α → Except E (List R))
    (itemOp : α → Except E R) (o : PSOptions) (hasShot : α → Bool) (stories : List α)
    (hc : o.continueOnError = true) :
    (∀ (batch : List α) (e : E), o.fallbackToIndividual = true → o.useBatchAPI = true →
      1 < batch.length → batchOp batch = .error e →
      processOneBatch batchOp itemOp o batch
        = ⟨batch.map (itemOutcome itemOp), .batchCall batch :: batch.map OpCall.itemCall, none⟩)
    ∧ (∀ (batch : List α) (e : E), o.fallbackToIndividual = false → o.useBatchAPI = true →
      1 < batch.length → batchOp batch = .error e →
      processOneBatch batchOp itemOp o batch
        = ⟨batch.map (fun s => .failure s e), [.batchCall batch], none⟩)
    ∧ (o.fallbackToIndividual = true → 1 ≤ o.batchSize →
      (∀ b : List α, 1 < b.length → ∃ e, batchOp b = .error e) →
      (processStoriesInBatches hasShot batchOp itemOp o stories).1
        = .ok (runIndividual itemOp true (stories.filter hasShot)).outs) := by
  refine ⟨?_, ?_, ?_⟩
  · intro batch e hf hb hlen hbo
    simp [processOneBatch, hb, hlen, hbo, hf, hc, runIndividual_true]
  · intro batch e hf hb hlen hbo
    simp [processOneBatch, hb, hlen, hbo, hf, hc]
  · intro hf hbs hbo
    have hloop := processBatchesLoop_map batchOp itemOp o
      (fun b => processOneBatch_fallback batchOp itemOp o b hc hf hbo)
      (chunkList o.batchSize (stories.filter hasShot))
    unfold processStoriesInBatches
    by_cases he : (stories.filter hasShot).isEmpty
    · rw [List.isEmpty_iff] at he
      simp [he, runIndividual]
    · rw [if_neg he, hloop, chunkList_flatten o.batchSize hbs, runIndividual_true]

theorem claim3_fallback_amended_witness :
    processOneBatch failBatchOp okItemOp {} [1, 2]
      = ⟨[Outcome.success (some 1) 1, Outcome.success (some 2) 2],
         [OpCall.batchCall [1, 2], OpCall.itemCall 1, OpCall.itemCall 2], none⟩
    ∧ processOneBatch failBatchOp okItemOp { fallbackToIndividual := false } [1, 2]
      = ⟨[Outcome.failure 1 9, Outcome.failure 2 9], [OpCall.batchCall [1, 2]], none⟩
    ∧ (processStoriesInBatches allShot failBatchOp okItemOp {} [1, 2, 3]).1
      = .ok (runIndividual okItemOp true ([1, 2, 3].filter allShot)).outs := by
  have h := claim3_fallback_amended failBatchOp okItemOp {} allShot [1, 2, 3] rfl
  have h2 := claim3_fallback_amended failBatchOp okItemOp
    { fallbackToIndividual := false } allShot ([] : List Nat) rfl
  refine ⟨?_, ?_, ?_⟩
  · have := h.1 [1, 2] 9 rfl rfl (by decide) rfl
    simpa [itemOutcome, okItemOp] using this
  · exact h2.2.1 [1, 2] 9 rfl rfl (by decide) rfl
  · exact h.2.2 rfl (by decide) (fun b _ => ⟨9, rfl⟩)

/-! Claim C8: single-item batches route through the per-item operation. -/

/-- Claim C8: a batch of exactly one item is routed through the per-item
operation directly — its processing log is exactly one item call on that item
(never a batch call) — and with `batchSize = 1` every call made during a whole
run is an item call on an item that passed the screenshot filter, so the batch
operation is never invoked. -/
theorem claim8_single_item_routing (batchOp : List α → Except E (List R))
    (itemOp : α → Except E R) (o : PSOptions) (stories : List α) (hasShot : α → Bool) :
    (∀ batch : List α, batch.length = 1 →
      (processOneBatch batchOp itemOp o batch).log = batch.map OpCall.itemCall)
    ∧ (o.batchSize = 1 →
      ∀ x ∈ (processStoriesInBatches hasShot batchOp itemOp o stories).2,
        ∃ s ∈ stories.filter hasShot, x = OpCall.itemCall s) := by
  have hsingle : ∀ batch : List α, batch.length = 1 →
      (processOneBatch batchOp itemOp o batch).log = batch.map OpCall.itemCall := by
    intro batch hlen
    obtain ⟨s, rfl⟩ : ∃ s, batch = [s] := by
      cases batch with
      | nil => simp at hlen
      | cons y ys =>
        cases ys with
        | nil => exact ⟨y, rfl⟩
        | cons z zs => simp at hlen
    have hcond : ¬(o.useBatchAPI = true ∧ 1 < ([s] : List α).length) := by simp
    unfold processOneBatch
    rw [if_neg hcond]
    cases hop : itemOp s <;> cases hco : o.continueOnError <;>
      simp [runIndividual, hop, hco]
  refine ⟨hsingle, ?_⟩
  intro hbs x hx
  unfold processStoriesInBatches at hx
  by_cases he : (stories.filter hasShot).isEmpty
  · simp only [he, if_true] at hx
    simp at hx
  · simp only [he, if_false] at hx
    obtain ⟨b, hb, hxb⟩ := processBatchesLoop_log batchOp itemOp o _ x hx
    rw [hbs] at hb
    have hb1 : b.length = 1 := chunkList_one_mem _ b hb
    rw [hsingle b hb1] at hxb
    obtain ⟨s, hs, hxs⟩ := List.mem_map.mp hxb
    exact ⟨s, chunkList_mem_mem 1 _ b hb s hs, hxs.symm⟩

theorem claim8_single_item_routing_witness :
    (processOneBatch okBatchOp okItemOp { batchSize := 1 } [(7 : Nat)]).log
      = [(7 : Nat)].map OpCall.itemCall
    ∧ allShot 1 = true := by
  have h := claim8_single_item_routing okBatchOp okItemOp { batchSize := 1 } [1, 2] allShot
  refine ⟨h.1 [7] (by decide), ?_⟩
  obtain ⟨s, hs, hxs⟩ := h.2 rfl (OpCall.itemCall 1) (by decide)
  injection hxs with h1
  rw [h1]
  exact (List.mem_filter.mp hs).2

/-! Claim C10: the public entry point `inspectStories`. -/

/-- Claim C10: `inspectStories` returns an empty collection on empty input
without invoking any operation (the call log is empty); on non-empty input in
which no story has an existing screenshot it throws its guard error rather
than returning an empty collection; and every operation invocation during any
run touches only stories whose screenshot file exists — filtered-out stories
are excluded from processing entirely. -/
theorem claim10_inspect_entry (batchOp : List α → Except E (List R)) (itemOp : α → Except E R)
    (o : PSOptions) (stories : List α) (hasShot : α → Bool) :
    (inspectStories hasShot batchOp itemOp o ([] : List α) = (.ok [], []))
    ∧ (stories ≠ [] → (∀ s ∈ stories, hasShot s = false) →
        inspectStories hasShot batchOp itemOp o stories = (.error .noValidStories, []))
    ∧ (∀ x ∈ (inspectStories hasShot batchOp itemOp o stories).2,
        (∀ b, x = OpCall.batchCall b → ∀ s ∈ b, hasShot s = true)
        ∧ (∀ s, x = OpCall.itemCall s → hasShot s = true)) := by
  refine ⟨rfl, ?_, ?_⟩
  · intro hne hnone
    have hemp : stories.isEmpty = false := by
      cases stories with
      | nil => exact absurd rfl hne
      | cons y ys => rfl
    have hfil : stories.filter hasShot = [] := by
      rw [List.filter_eq_nil_iff]
      intro s hs
      simp [hnone s hs]
    unfold inspectStories
    rw [hemp]
    simp [hfil]
  · intro x hx
    unfold inspectStories at hx
    by_cases hemp : stories.isEmpty
    · simp only [hemp, if_true] at hx
      simp at hx
    · simp only [hemp, if_false] at hx
      by_cases hval : (stories.filter hasShot).isEmpty
      · simp only [hval, if_true] at hx
        simp at hx
      · simp only [hval, if_false] at hx
        have hx2 : x ∈ (processStoriesInBatches hasShot batchOp itemOp o
            (stories.filter hasShot)).2 := hx
        unfold processStoriesInBatches at hx2
        have hff : (stories.filter hasShot).filter hasShot = stories.filter hasShot := by
          rw [List.filter_filter]
          simp
        rw [hff] at hx2
        by_cases hval2 : (stories.filter hasShot).isEmpty
        · simp only [hval2, if_true] at hx2
          simp at hx2
        · simp only [hval2, if_false] at hx2
          obtain ⟨b, hb, hxb⟩ := processBatchesLoop_log batchOp itemOp o _ x hx2
          have hbsub : ∀ s ∈ b, hasShot s = true := by
            intro s hs
            have := chunkList_mem_mem o.batchSize _ b hb s hs
            exact (List.mem_filter.mp this).2
          rcases processOneBatch_log batchOp itemOp o b x hxb with h | ⟨s, hs, hxs⟩
          · subst h
            refine ⟨?_, ?_⟩
            · intro b2 hb2
              cases hb2
              exact hbsub
            · intro s hs
              cases hs
          · subst hxs
            refine ⟨?_, ?_⟩
            · intro b2 hb2
              cases hb2
            · intro t ht
              cases ht
              exact hbsub s hs

theorem claim10_inspect_entry_witness :
    inspectStories shotNonzero okBatchOp okItemOp {} ([] : List Nat) = (.ok [], [])
    ∧ inspectStories shotNonzero okBatchOp okItemOp {} [0] = (.error .noValidStories, [])
    ∧ shotNonzero 1 = true := by
  have h0 := claim10_inspect_entry okBatchOp okItemOp {} [(0 : Nat)] shotNonzero
  have h1 := claim10_inspect_entry okBatchOp okItemOp {} [(1 : Nat), 2] shotNonzero
  refine ⟨h0.1, ?_, ?_⟩
  · exact h0.2.1 (by decide) (by decide)
  · exact (h1.2.2 (OpCall.batchCall [1, 2])
      (by decide : OpCall.batchCall [1, 2]
        ∈ (inspectStories shotNonzero okBatchOp okItemOp {} [(1 : Nat), 2]).2)).1
      [1, 2] rfl 1 (by decide)

/-! Lemmas about the bounded-concurrency scheduler. -/

theorem inflightTrace_append (a : Nat) (t₁ t₂ : List SchedEv) :
    inflightTrace a (t₁ ++ t₂)
      = inflightTrace a t₁ ++ inflightTrace (inflightEnd a t₁) t₂ := by
  induction t₁ generalizing a with
  | nil => rfl
  | cons e es ih =>
    cases e with
    | launch i => simp [inflightTrace, inflightEnd, ih]
    | complete i => simp [inflightTrace, inflightEnd, ih]

theorem inflightEnd_launches (ids : List Nat) :
    ∀ a, inflightEnd a (ids.map SchedEv.launch) = a + ids.length := by
  induction ids with
  | nil => intro a; simp [inflightEnd]
  | cons i is ih =>
    intro a
    simp only [List.map_cons, inflightEnd, ih, List.length_cons]
    omega

theorem inflightEnd_completes (ps : List (Nat × γ)) :
    ∀ a, inflightEnd a (ps.map fun p => SchedEv.complete p.1) = a - ps.length := by
  induction ps with
  | nil => intro a; simp [inflightEnd]
  | cons p ps ih =>
    intro a
    simp only [List.map_cons, inflightEnd, ih, List.length_cons]
    omega

theorem inflightTrace_launches_le (ids : List Nat) :
    ∀ a, ∀ n ∈ inflightTrace a (ids.map SchedEv.launch), n ≤ a + ids.length := by
  induction ids with
  | nil => intro a n hn; simp [inflightTrace] at hn
  | cons i is ih =>
    intro a n hn
    simp only [List.map_cons, inflightTrace, List.mem_cons] at hn
    rcases hn with h | h
    · simp [h]
    · have := ih (a + 1) n h
      simp only [List.length_cons]
      omega

theorem inflightTrace_completes_le (ps : List (Nat × γ)) :
    ∀ a, ∀ n ∈ inflightTrace a (ps.map fun p => SchedEv.complete p.1), n ≤ a := by
  induction ps with
  | nil => intro a n hn; simp [inflightTrace] at hn
  | cons p ps ih =>
    intro a n hn
    simp only [List.map_cons, inflightTrace, List.mem_cons] at hn
    rcases hn with h | h
    · omega
    · have := ih (a - 1) n h
      omega

/-- Invariants of the launch phase: it moves batches from the front of the
queue to the back of the active set (preserving their concatenation), one
launch recorded per moved batch, and it never grows the active set beyond the
concurrency ceiling. -/
theorem launchPhaseGo_inv (k : Nat) :
    ∀ (qs active : List (Nat × γ)),
      (launchPhaseGo k qs active).1.active ++ (launchPhaseGo k qs active).1.queue
          = active ++ qs
      ∧ (launchPhaseGo k qs active).1.active.length
          = active.length + (launchPhaseGo k qs active).2.length
      ∧ (active.length ≤ k → (launchPhaseGo k qs active).1.active.length ≤ k) := by
  intro qs
  induction qs with
  | nil => intro active; simp [launchPhaseGo]
  | cons q qs ih =>
    intro active
    by_cases h : active.length < k
    · have ihh := ih (active ++ [q])
      simp only [launchPhaseGo, if_pos h]
      refine ⟨?_, ?_, ?_⟩
      · rw [ihh.1]
        simp
      · rw [ihh.2.1]
        simp
        omega
      · intro _
        exact ihh.2.2 (by simp; omega)
    · simp [launchPhaseGo, if_neg h]

theorem inflightEnd_append (a : Nat) (t₁ t₂ : List SchedEv) :
    inflightEnd a (t₁ ++ t₂) = inflightEnd (inflightEnd a t₁) t₂ := by
  induction t₁ generalizing a with
  | nil => rfl
  | cons e es ih =>
    cases e with
    | launch i => simp [inflightEnd, ih]
    | complete i => simp [inflightEnd, ih]

/-- Invariants of the launch phase restated on scheduler states. -/
theorem launchPhase_inv (k : Nat) (st : SchedState γ) :
    (launchPhase k st).1.active ++ (launchPhase k st).1.queue = st.active ++ st.queue
    ∧ (launchPhase k st).1.active.length
        = st.active.length + (launchPhase k st).2.length
    ∧ (st.active.length ≤ k → (launchPhase k st).1.active.length ≤ k) :=
  launchPhaseGo_inv k st.queue st.active

/-- The tasks completing at a race point together with the remaining active
tasks are a permutation of the active set. -/
theorem raceComp_perm (entry : List Nat) (active : List (Nat × γ)) :
    List.Perm ((raceComp entry active).1 ++ (raceComp entry active).2) active := by
  simp only [raceComp]
  cases hf : (active.filter fun p => decide (p.1 ∈ entry)).isEmpty with
  | true =>
    cases active with
    | nil => simp
    | cons x xs => simp
  | false =>
    simp only [Bool.false_eq_true, if_false]
    have hneg : (fun p : Nat × γ => decide (p.1 ∉ entry))
        = fun p : Nat × γ => !(decide (p.1 ∈ entry)) := by
      funext p
      exact decide_not
    rw [hneg]
    exact List.filter_append_perm _ active

theorem raceComp_len (entry : List Nat) (active : List (Nat × γ)) :
    (raceComp entry active).1.length + (raceComp entry active).2.length = active.length := by
  have h := (raceComp_perm entry active).length_eq
  simpa using h

/-- With an empty schedule entry the longest-running active task completes. -/
theorem raceComp_nil_entry (active : List (Nat × γ)) :
    raceComp ([] : List Nat) active = (active.take 1, active.drop 1) := by
  simp only [raceComp]
  have hfil : (active.filter fun p => decide (p.1 ∈ ([] : List Nat))) = [] := by
    simp
  rw [hfil]
  rfl

/-- Main scheduler invariant: a completed run has completed exactly the tasks
of the initial active set and queue (as a multiset, in some completion order),
and the number of in-flight tasks never exceeds the concurrency ceiling at any
point of the event trace. -/
theorem schedLoopF_spec (k : Nat) :
    ∀ (fuel : Nat) (sched : List (List Nat)) (st : SchedState γ)
      (comps : List (Nat × γ)) (tr : List SchedEv),
      schedLoopF k fuel sched st = some (comps, tr) →
      st.active.length ≤ k →
      List.Perm comps (st.active ++ st.queue)
      ∧ (∀ n ∈ inflightTrace st.active.length tr, n ≤ k) := by
  intro fuel
  induction fuel with
  | zero =>
    intro sched st comps tr h
    exact absurd h (by simp [schedLoopF])
  | succ n ih =>
    intro sched st comps tr h hk
    simp only [schedLoopF] at h
    by_cases hemp : st.queue.isEmpty ∧ st.active.isEmpty
    · rw [if_pos hemp] at h
      cases h
      obtain ⟨hq, ha⟩ := hemp
      rw [List.isEmpty_iff] at hq ha
      constructor
      · rw [hq, ha]
        exact List.Perm.refl _
      · intro m hm
        simp [inflightTrace] at hm
    · rw [if_neg hemp] at h
      by_cases hact : (launchPhase k st).1.active.isEmpty
      · rw [if_pos hact] at h
        exact absurd h (by simp)
      · rw [if_neg hact] at h
        cases hrec : schedLoopF k n sched.tail
            ⟨(launchPhase k st).1.queue,
             (raceComp (sched.headD []) (launchPhase k st).1.active).2⟩ with
        | none =>
          rw [hrec] at h
          exact absurd h (by simp)
        | some r =>
          rw [hrec] at h
          cases h
          have inv := launchPhase_inv k st
          have rcl := raceComp_len (sched.headD []) (launchPhase k st).1.active
          have hlpk : (launchPhase k st).1.active.length ≤ k := inv.2.2 hk
          have hk2 : (raceComp (sched.headD []) (launchPhase k st).1.active).2.length
              ≤ k := by
            omega
          have spec := ih sched.tail
            ⟨(launchPhase k st).1.queue,
             (raceComp (sched.headD []) (launchPhase k st).1.active).2⟩ r.1 r.2 hrec hk2
          constructor
          · have p1 : List.Perm
                ((raceComp (sched.headD []) (launchPhase k st).1.active).1 ++ r.1)
                ((raceComp (sched.headD []) (launchPhase k st).1.active).1
                  ++ ((raceComp (sched.headD []) (launchPhase k st).1.active).2
                      ++ (launchPhase k st).1.queue)) :=
              List.Perm.append_left _ spec.1
            have p2 : List.Perm
                (((raceComp (sched.headD []) (launchPhase k st).1.active).1
                  ++ (raceComp (sched.headD []) (launchPhase k st).1.active).2)
                  ++ (launchPhase k st).1.queue)
                ((launchPhase k st).1.active ++ (launchPhase k st).1.queue) :=
              List.Perm.append_right _ (raceComp_perm _ _)
            rw [← List.append_assoc] at p1
            have p3 := p1.trans p2
            rw [inv.1] at p3
            exact p3
          · intro m hm
            rw [inflightTrace_append, inflightTrace_append, inflightEnd_append,
              inflightEnd_launches, inflightEnd_completes] at hm
            have hlpa : st.active.length + (launchPhase k st).2.length
                = (launchPhase k st).1.active.length := inv.2.1.symm
            rw [hlpa] at hm
            rcases List.mem_append.mp hm with hm1 | hm3
            · rcases List.mem_append.mp hm1 with hm1a | hm1b
              · have hb := inflightTrace_launches_le (launchPhase k st).2
                  st.active.length m hm1a
                omega
              · have hb := inflightTrace_completes_le
                  (raceComp (sched.headD []) (launchPhase k st).1.active).1
                  (launchPhase k st).1.active.length m hm1b
                omega
            · have heq : (launchPhase k st).1.active.length
                  - (raceComp (sched.headD []) (launchPhase k st).1.active).1.length
                  = (raceComp (sched.headD []) (launchPhase k st).1.active).2.length := by
                omega
              rw [heq] at hm3
              exact spec.2 m hm3

/-- With the default (empty) schedule, tasks complete in launch order, so the
completion order is exactly the queue order. -/
theorem schedLoopF_inorder (k : Nat) :
    ∀ (fuel : Nat) (st : SchedState γ) (comps : List (Nat × γ)) (tr : List SchedEv),
      schedLoopF k fuel ([] : List (List Nat)) st = some (comps, tr) →
      comps = st.active ++ st.queue := by
  intro fuel
  induction fuel with
  | zero =>
    intro st comps tr h
    exact absurd h (by simp [schedLoopF])
  | succ n ih =>
    intro st comps tr h
    simp only [schedLoopF] at h
    by_cases hemp : st.queue.isEmpty ∧ st.active.isEmpty
    · rw [if_pos hemp] at h
      cases h
      obtain ⟨hq, ha⟩ := hemp
      rw [List.isEmpty_iff] at hq ha
      rw [hq, ha]
      rfl
    · rw [if_neg hemp] at h
      by_cases hact : (launchPhase k st).1.active.isEmpty
      · rw [if_pos hact] at h
        exact absurd h (by simp)
      · rw [if_neg hact] at h
        rw [show (([] : List (List Nat)).headD []) = ([] : List Nat) from rfl,
          raceComp_nil_entry] at h
        cases hrec : schedLoopF k n ([] : List (List Nat)).tail
            ⟨(launchPhase k st).1.queue, (launchPhase k st).1.active.drop 1⟩ with
        | none =>
          rw [hrec] at h
          exact absurd h (by simp)
        | some r =>
          rw [hrec] at h
          cases h
          have hr := ih ⟨(launchPhase k st).1.queue, (launchPhase k st).1.active.drop 1⟩
            r.1 r.2 hrec
          rw [hr]
          have inv := launchPhase_inv k st
          calc (launchPhase k st).1.active.take 1
                ++ ((launchPhase k st).1.active.drop 1 ++ (launchPhase k st).1.queue)
              = ((launchPhase k st).1.active.take 1 ++ (launchPhase k st).1.active.drop 1)
                ++ (launchPhase k st).1.queue := by rw [List.append_assoc]
            _ = (launchPhase k st).1.active ++ (launchPhase k st).1.queue := by
                rw [List.take_append_drop]
            _ = st.active ++ st.queue := inv.1

/-! Lemmas about the R2 upload aggregation. -/

/-- Under an always-successful upload operation, the sequential aggregation
records every file, in input order. -/
theorem uploadFiles_map_originalPath (upload : α → Except E R)
    (hok : ∀ f, ∃ r, upload f = .ok r) (l : List α) :
    (uploadFiles upload l).map UpOk.originalPath = l := by
  induction l with
  | nil => rfl
  | cons f fs ih =>
    obtain ⟨r, hr⟩ := hok f
    simp only [uploadFiles, List.filterMap_cons, hr] at ih ⊢
    simpa using ih

/-- The per-batch result list of `processSingleUploadBatch` is the sequential
aggregation of that batch. -/
theorem processSingleUploadBatch_results (upload : α → Except E R) (b : List α) :
    (processSingleUploadBatch (E := E) upload b).results = uploadFiles upload b := rfl

theorem uploadFiles_append (upload : α → Except E R) (l₁ l₂ : List α) :
    uploadFiles upload (l₁ ++ l₂) = uploadFiles upload l₁ ++ uploadFiles upload l₂ := by
  simp [uploadFiles, List.filterMap_append]

/-- Sequential per-file upload equals sequential batch-by-batch upload: the
concatenation of the per-batch result lists over the chunks of the input, in
order, is the sequential aggregation. -/
theorem uploadFiles_chunks (upload : α → Except E R) (bs : Nat) (hbs : 1 ≤ bs) :
    ∀ l : List α,
      ((chunkList bs l).map fun b =>
        (processSingleUploadBatch (E := E) upload b).results).flatten
      = uploadFiles upload l
  | [] => rfl
  | x :: xs => by
    rw [chunkList_cons bs (by omega) x xs]
    simp only [List.map_cons, List.flatten_cons]
    rw [uploadFiles_chunks upload bs hbs ((x :: xs).drop bs), processSingleUploadBatch_results]
    have hsplit : uploadFiles upload (x :: xs)
        = uploadFiles upload ((x :: xs).take bs) ++ uploadFiles upload ((x :: xs).drop bs) := by
      rw [← uploadFiles_append, List.take_append_drop]
    rw [hsplit]
  termination_by l => l.length
  decreasing_by simp [List.length_drop]; omega

/-! Claim C4: the concurrency bound. -/

/-- Claim C4: in every completed run of the parallel engine with concurrency
ceiling `k`, the number of batch tasks simultaneously in flight never exceeds
`k` at any point of the scheduler event trace — launches only happen while
fewer than `k` tasks are active. -/
theorem claim4_concurrency_bound (upload : α → Except E R) (files : List α)
    (bs k : Nat) (ep : Bool) (sched : List (List Nat)) (fuel : Nat)
    (res : List (UpOk α R)) (tr : List SchedEv)
    (hrun : uploadFilesInParallelM upload files bs k ep sched fuel = some (res, tr)) :
    ∀ n ∈ inflightTrace 0 tr, n ≤ k := by
  simp only [uploadFilesInParallelM] at hrun
  by_cases hseq : ¬ep = true ∨ k ≤ 1
  · rw [if_pos hseq] at hrun
    cases hrun
    intro n hn
    simp [inflightTrace] at hn
  · rw [if_neg hseq] at hrun
    cases hrec : schedLoopF k fuel sched
        (⟨(chunkList bs files).enum.map fun p =>
            (p.1, processSingleUploadBatch (E := E) upload p.2), []⟩
          : SchedState (UpBatchOut α R E)) with
    | none =>
      rw [hrec] at hrun
      exact absurd hrun (by simp)
    | some r =>
      rw [hrec] at hrun
      cases hrun
      have spec := schedLoopF_spec k fuel sched _ r.1 r.2 hrec (by simp)
      intro n hn
      exact spec.2 n hn

theorem claim4_concurrency_bound_witness :
    (inflightTrace 0 [SchedEv.launch 0, SchedEv.launch 1, SchedEv.complete 1,
        SchedEv.launch 2, SchedEv.complete 0, SchedEv.complete 2]).all
      (fun n => decide (n ≤ 2)) = true := by
  have h := claim4_concurrency_bound okUpload [0, 1, 2] 1 2 true [[1], [0], [2]] 10
    [⟨1, 1⟩, ⟨0, 0⟩, ⟨2, 2⟩]
    [SchedEv.launch 0, SchedEv.launch 1, SchedEv.complete 1, SchedEv.launch 2,
     SchedEv.complete 0, SchedEv.complete 2] rfl
  rw [List.all_eq_true]
  intro n hn
  rw [decide_eq_true_eq]
  exact h n hn

/-! Claim C1: aggregation order. -/

/-- Claim C1 is false on the code: completing batches push their results in
completion order, not keyed by original position. With input `[0, 1]`, batch
size 1 and a schedule under which the second batch completes first, the
aggregated outcome list is `[1, 0]`: the 0-th outcome's item is not the 0-th
input item. -/
theorem claim1_order_cex :
    uploadFilesInParallelM okUpload [0, 1] 1 2 true [[1], [0]] 10
      = some ([⟨1, 1⟩, ⟨0, 0⟩],
          [SchedEv.launch 0, SchedEv.launch 1, SchedEv.complete 1, SchedEv.complete 0])
    ∧ ([⟨1, 1⟩, ⟨0, 0⟩] : List (UpOk Nat Nat)).map UpOk.originalPath ≠ [0, 1] := by
  constructor
  · rfl
  · decide

/-- Flattened batch results mapped to their original paths, batch by batch. -/
theorem res_map_orig (r1 : List (Nat × UpBatchOut α R E)) :
    ((r1.map fun p => p.2.results).flatten).map UpOk.originalPath
      = (r1.map fun p => p.2.results.map UpOk.originalPath).flatten := by
  induction r1 with
  | nil => rfl
  | cons c cs ih => simp only [List.map_cons, List.flatten_cons, List.map_append, ih]

/-- The scheduler queue built from the chunks of the input carries, per batch,
exactly that batch's files (under an always-successful upload). -/
theorem queue_results_files (upload : α → Except E R)
    (hok : ∀ f, ∃ r, upload f = .ok r) (bs : Nat) (hbs : 1 ≤ bs) (files : List α) :
    ((((chunkList bs files).enum.map fun p =>
          (p.1, processSingleUploadBatch (E := E) upload p.2)).map
        fun p => p.2.results.map UpOk.originalPath).flatten) = files := by
  rw [List.map_map]
  have hcg := List.map_congr_left (l := (chunkList bs files).enum)
    (f := (fun p : Nat × UpBatchOut α R E => p.2.results.map UpOk.originalPath)
      ∘ fun p : Nat × List α => (p.1, processSingleUploadBatch (E := E) upload p.2))
    (g := Prod.snd)
    (by
      intro p hp
      show (processSingleUploadBatch (E := E) upload p.2).results.map UpOk.originalPath = p.2
      rw [processSingleUploadBatch_results]
      exact uploadFiles_map_originalPath upload hok p.2)
  rw [hcg, List.enum_map_snd]
  exact chunkList_flatten bs hbs files

/-- Claim C1 (amended): the aggregated outcome collection is the per-batch
outcome blocks concatenated in completion order, each block preserving input
order within its batch; hence the outcome items are always a permutation of
the input (nothing lost or duplicated), and input order is preserved exactly
when batches complete in launch order — in particular under the default
(in-launch-order) schedule, and in the sequential path. -/
theorem claim1_order_amended (upload : α → Except E R) (files : List α)
    (bs k : Nat) (sched : List (List Nat)) (fuel : Nat)
    (res : List (UpOk α R)) (tr : List SchedEv)
    (hok : ∀ f, ∃ r, upload f = .ok r) (hbs : 1 ≤ bs)
    (hrun : uploadFilesInParallelM upload files bs k true sched fuel = some (res, tr)) :
    List.Perm (res.map UpOk.originalPath) files
    ∧ (sched = [] → res.map UpOk.originalPath = files) := by
  simp only [uploadFilesInParallelM] at hrun
  by_cases hk : k ≤ 1
  · rw [if_pos (Or.inr hk)] at hrun
    cases hrun
    rw [uploadFiles_map_originalPath upload hok files]
    exact ⟨List.Perm.refl _, fun _ => rfl⟩
  · rw [if_neg (fun hor => hor.elim (fun h1 => h1 trivial) hk)] at hrun
    cases hrec : schedLoopF k fuel sched
        (⟨(chunkList bs files).enum.map fun p =>
            (p.1, processSingleUploadBatch (E := E) upload p.2), []⟩
          : SchedState (UpBatchOut α R E)) with
    | none =>
      rw [hrec] at hrun
      exact absurd hrun (by simp)
    | some r =>
      rw [hrec] at hrun
      cases hrun
      have spec := schedLoopF_spec k fuel sched _ r.1 r.2 hrec (by simp)
      have hperm : List.Perm r.1 ((chunkList bs files).enum.map fun p =>
          (p.1, processSingleUploadBatch (E := E) upload p.2)) := by
        simpa using spec.1
      constructor
      · rw [res_map_orig]
        have hp := (hperm.map fun p => p.2.results.map UpOk.originalPath).flatten
        rw [queue_results_files upload hok bs hbs files] at hp
        exact hp
      · intro hsched
        subst hsched
        have hord := schedLoopF_inorder k fuel
          (⟨(chunkList bs files).enum.map fun p =>
              (p.1, processSingleUploadBatch (E := E) upload p.2), []⟩
            : SchedState (UpBatchOut α R E)) r.1 r.2 hrec
        simp only [List.nil_append] at hord
        rw [hord, res_map_orig]
        exact queue_results_files upload hok bs hbs files

theorem claim1_order_amended_witness :
    List.Perm (([⟨1, 1⟩, ⟨0, 0⟩] : List (UpOk Nat Nat)).map UpOk.originalPath) [0, 1]
    ∧ ([⟨0, 0⟩, ⟨1, 1⟩] : List (UpOk Nat Nat)).map UpOk.originalPath = [0, 1] := by
  have h1 := claim1_order_amended okUpload [0, 1] 1 2 [[1], [0]] 10
    [⟨1, 1⟩, ⟨0, 0⟩]
    [SchedEv.launch 0, SchedEv.launch 1, SchedEv.complete 1, SchedEv.complete 0]
    (fun f => ⟨f, rfl⟩) (by decide) rfl
  have h2 := claim1_order_amended okUpload [0, 1] 1 2 [] 10
    [⟨0, 0⟩, ⟨1, 1⟩]
    [SchedEv.launch 0, SchedEv.launch 1, SchedEv.complete 0, SchedEv.complete 1]
    (fun f => ⟨f, rfl⟩) (by decide) rfl
  exact ⟨h1.1, h2.2 rfl⟩

/-! Claim C9: degeneration to sequential processing. -/

/-- Claim C9: with `enableParallel = false` or a concurrency ceiling of at
most one, the parallel engines return exactly the result of their sequential
counterparts (`generateTextEmbeddings`, `uploadFiles`) with an empty scheduler
trace; and sequential per-file upload is itself equal to purely sequential
batch-by-batch processing of the chunked input. -/
theorem claim9_sequential_equiv (hasText : α → Bool) (withEmb : α → Emb → α)
    (embCall : List α → Except E (List Emb)) (stories : List α)
    (upload : β → Except E₂ R) (files : List β)
    (bs k : Nat) (ep : Bool) (sched : List (List Nat)) (fuel : Nat)
    (h : ep = false ∨ k ≤ 1) (hbs : 1 ≤ bs) :
    generateTextEmbeddingsInParallelM hasText withEmb embCall stories bs k ep sched fuel
      = some (generateTextEmbeddings hasText withEmb embCall stories bs, [])
    ∧ uploadFilesInParallelM upload files bs k ep sched fuel
      = some (uploadFiles upload files, [])
    ∧ uploadFiles upload files
      = ((chunkList bs files).map fun b =>
          (processSingleUploadBatch (E := E₂) upload b).results).flatten := by
  have hcond : (¬ep = true ∨ k ≤ 1) := by
    rcases h with h | h
    · left
      simp [h]
    · right
      exact h
  refine ⟨?_, ?_, (uploadFiles_chunks upload bs hbs files).symm⟩
  · simp only [generateTextEmbeddingsInParallelM]
    by_cases he : (stories.filter hasText).isEmpty
    · rw [if_pos he]
      have hseq : generateTextEmbeddings hasText withEmb embCall stories bs = [] := by
        simp only [generateTextEmbeddings]
        rw [if_pos he]
      rw [hseq]
    · rw [if_neg he, if_pos hcond]
  · simp only [uploadFilesInParallelM]
    rw [if_pos hcond]

theorem claim9_sequential_equiv_witness :
    generateTextEmbeddingsInParallelM allShot withEmbAdd embCallOk [1, 2, 3] 2 1 true [] 10
      = some (generateTextEmbeddings allShot withEmbAdd embCallOk [1, 2, 3] 2, [])
    ∧ uploadFilesInParallelM okUpload [4, 5] 2 1 true [] 10
      = some (uploadFiles okUpload [4, 5], [])
    ∧ uploadFiles okUpload [4, 5]
      = ((chunkList 2 [4, 5]).map fun b =>
          (processSingleUploadBatch (E := Nat) okUpload b).results).flatten :=
  claim9_sequential_equiv allShot withEmbAdd embCallOk [1, 2, 3] okUpload [4, 5]
    2 1 true [] 10 (Or.inr (by decide)) (by decide)

end Scry
